import Mathlib

/-!
Verification of the vocabulary-statistics core of this repository
(`stats.py`): term extraction from a markdown vocabulary document,
case-insensitive whole-word frequency counting, top-k selection, and
graph-model construction.

The Python functions are shallowly embedded as executable Lean
definitions over `List Char` / `String`.  The regex
`r"\b" + re.escape(term) + r"\b"` used by `count_frequencies` denotes a
literal occurrence of `term` flanked by word boundaries, which is what
`matchAt` encodes; `re.findall` counts non-overlapping matches scanning
left to right, which `scanCount` encodes.  Word characters are modelled
as the ASCII class `[a-zA-Z0-9_]` (the inputs in this development are
ASCII).
-/

namespace VocabStats

/-- Word character, the ASCII reading of the regex class `\w`. -/
def isWordChar (c : Char) : Bool :=
  c.isAlphanum || c == '_'

/-- Whether position `j` of `text` holds a word character
(out-of-range counts as non-word). -/
def charIsWord (text : List Char) (j : Nat) : Bool :=
  match text[j]? with
  | some c => isWordChar c
  | none => false

/-- The regex word-boundary anchor `\b` at position `i`: exactly one of
the character before `i` and the character at `i` is a word character. -/
def boundaryAt (text : List Char) (i : Nat) : Bool :=
  (if i = 0 then false else charIsWord text (i - 1)) != charIsWord text i

/-- The pattern `\b<escaped term>\b` matches `text` at position `i`:
word boundaries on both sides and the literal characters of `term`
in between (`re.escape` makes the term letters literal). -/
def matchAt (term text : List Char) (i : Nat) : Bool :=
  boundaryAt text i && boundaryAt text (i + term.length) &&
    ((text.drop i).take term.length == term)

/-- Left-to-right scan counting non-overlapping matches, as
`re.findall` does: on a match at `i`, resume at `i + term.length`,
otherwise at `i + 1`.  `fuel` bounds the number of scan steps; since
each step advances the position by at least one,
`fuel = text.length + 1` visits every candidate position. -/
def scanCount (term text : List Char) : Nat → Nat → Nat
  | _, 0 => 0
  | i, fuel + 1 =>
    if matchAt term text i then
      scanCount term text (i + term.length) fuel + 1
    else
      scanCount term text (i + 1) fuel

/-- `len(re.findall(r"\b" + re.escape(term) + r"\b", text))`, with the
empty-term guard of `count_frequencies` (`if not term: 0`). -/
def count_term (text term : List Char) : Nat :=
  if term = [] then 0 else scanCount term text 0 (text.length + 1)

/-- Python `str.lower` on the character list (ASCII reading). -/
def lowerL (l : List Char) : List Char :=
  l.map Char.toLower

/-- Python whitespace stripped by `str.strip()` (ASCII reading). -/
def isPySpace (c : Char) : Bool :=
  c == ' ' || c == '\t' || c == '\n' || c == '\r' || c == '\x0b' || c == '\x0c'

/-- Python `str.strip()`: drop leading and trailing whitespace. -/
def pyStrip (l : List Char) : List Char :=
  ((l.dropWhile isPySpace).reverse.dropWhile isPySpace).reverse

/-- The part of `l` after its first `'.'`; when `l` has no `'.'`, `l`
itself — Python `l.split(".", 1)[-1]`. -/
def afterFirstDot (l : List Char) : List Char :=
  if '.' ∈ l then dropThroughDot l else l
where
  /-- Drop characters up to and including the first `'.'`. -/
  dropThroughDot : List Char → List Char
    | [] => []
    | c :: cs => if c = '.' then cs else dropThroughDot cs

/-- Python `str.splitlines` restricted to `'\n'` separators (the
vocabulary documents in this development use `'\n'` line endings). -/
def splitLines (l : List Char) : List (List Char) :=
  l.splitOn '\n'

/-- The per-line loop of `extract_terms`: keep lines whose stripped
form starts with `##`; the term is `stripped.split(".", 1)[-1]`
stripped and lower-cased; empty terms are skipped. -/
def extractFromLines : List (List Char) → List (List Char)
  | [] => []
  | l :: ls =>
    let stripped := pyStrip l
    if stripped.take 2 = ['#', '#'] then
      let term := lowerL (pyStrip (afterFirstDot stripped))
      if term = [] then extractFromLines ls else term :: extractFromLines ls
    else extractFromLines ls

/-- `extract_terms` of `stats.py` on a whole vocabulary document. -/
def extract_terms (vocab : String) : List String :=
  (extractFromLines (splitLines vocab.data)).map (fun l => ⟨l⟩)

/-- First-occurrence deduplication, the key order a Python dict gives
when assigned once per term in input order. -/
def dedupFirstAux : List String → List String → List String
  | _, [] => []
  | seen, t :: ts =>
    if t ∈ seen then dedupFirstAux seen ts
    else t :: dedupFirstAux (t :: seen) ts

/-- Keys of the dict built by `count_frequencies`: input terms with
later duplicates dropped. -/
def dedupFirst (l : List String) : List String :=
  dedupFirstAux [] l

/-- `count_frequencies` of `stats.py`: the dict `term → count` as an
association list in insertion order.  The text is lower-cased once; a
duplicate term is reassigned the same count, so the dict holds one
entry per distinct term at its first position. -/
def count_frequencies (text : String) (terms : List String) : List (String × Nat) :=
  (dedupFirst terms).map (fun t => (t, count_term (lowerL text.data) t.data))

/-- Lexicographic order on strings by character code point, Python's
`str` comparison (a strict prefix sorts first). -/
def strLT (s t : String) : Prop :=
  List.Lex (· < ·) s.data t.data

instance : DecidableRel strLT := fun s t =>
  (inferInstance : Decidable (List.Lex (· < ·) s.data t.data))

/-- The sort order of `_get_top_terms`, Python key `(-count, term)`:
higher count first, ties by term string ascending. -/
def termLE (a b : String × Nat) : Prop :=
  b.2 < a.2 ∨ (a.2 = b.2 ∧ ¬ strLT b.1 a.1)

instance : DecidableRel termLE := fun a b =>
  (inferInstance : Decidable (b.2 < a.2 ∨ (a.2 = b.2 ∧ ¬ strLT b.1 a.1)))

theorem strLT_asymm {s t : String} (h : strLT s t) : ¬ strLT t s :=
  IsAsymm.asymm (r := List.Lex (· < ·)) _ _ h

theorem strLT_eq_of_not {s t : String} (h1 : ¬ strLT s t) (h2 : ¬ strLT t s) :
    s = t := by
  have tri := (inferInstance : IsTrichotomous (List Char) (List.Lex (· < ·)))
  rcases tri.trichotomous s.data t.data with h | h | h
  · exact absurd h h1
  · cases s; cases t; exact congrArg String.mk h
  · exact absurd h h2

theorem strLT_trans {s t u : String} (h1 : strLT s t) (h2 : strLT t u) :
    strLT s u :=
  IsTrans.trans (r := List.Lex (· < ·)) _ _ _ h1 h2

instance : IsTotal (String × Nat) termLE where
  total a b := by
    rcases lt_trichotomy a.2 b.2 with h | h | h
    · exact Or.inr (Or.inl h)
    · by_cases h1 : strLT b.1 a.1
      · exact Or.inr (Or.inr ⟨h.symm, strLT_asymm h1⟩)
      · exact Or.inl (Or.inr ⟨h, h1⟩)
    · exact Or.inl (Or.inl h)

instance : IsTrans (String × Nat) termLE where
  trans a b c hab hbc := by
    rcases hab with h1 | ⟨h1, h1s⟩ <;> rcases hbc with h2 | ⟨h2, h2s⟩
    · exact Or.inl (h2.trans h1)
    · exact Or.inl (h2 ▸ h1)
    · exact Or.inl (h1 ▸ h2)
    · refine Or.inr ⟨h1.trans h2, fun hlt => ?_⟩
      by_cases hm : strLT b.1 c.1
      · exact h1s (strLT_trans hm hlt)
      · exact h1s (by rw [strLT_eq_of_not hm h2s]; exact hlt)

instance : IsAntisymm (String × Nat) termLE where
  antisymm a b hab hba := by
    rcases hab with h1 | ⟨h1, h1s⟩ <;> rcases hba with h2 | ⟨h2, h2s⟩
    · exact absurd (h1.trans h2) (lt_irrefl _)
    · exact absurd h1 (h2 ▸ lt_irrefl _)
    · exact absurd h2 (h1 ▸ lt_irrefl _)
    · exact Prod.ext (strLT_eq_of_not h2s h1s) h1

/-- `_get_top_terms` of `stats.py`: keep terms with count > 0, sort by
`(-count, term)`, return the first `top_k` term names. -/
def get_top_terms (freq : List (String × Nat)) (top_k : Nat := 3) : List String :=
  let nonZero := freq.filter (fun p => 0 < p.2)
  if nonZero = [] then []
  else ((List.insertionSort termLE nonZero).take top_k).map Prod.fst

/-- The positions at which the scan of `scanCount` finds its matches;
`scanCount` is its length. -/
def matchPositions (term text : List Char) : Nat → Nat → List Nat
  | _, 0 => []
  | i, fuel + 1 =>
    if matchAt term text i then
      i :: matchPositions term text (i + term.length) fuel
    else
      matchPositions term text (i + 1) fuel

/-- The list of match positions behind `count_term`. -/
def match_positions (text term : List Char) : List Nat :=
  if term = [] then [] else matchPositions term text 0 (text.length + 1)

/-- The sorted, truncated pair list inside `_get_top_terms`
(`non_zero.sort(key=lambda x: (-x[1], x[0]))[:top_k]`). -/
def topPairs (freq : List (String × Nat)) (k : Nat) : List (String × Nat) :=
  (List.insertionSort termLE (freq.filter (fun p => 0 < p.2))).take k

/-- The term a vocabulary line contributes, following the amended
extraction claim: after trimming, a line starting with `##` yields a
term; when the line contains a `.`, everything up to and including the
first `.` is discarded and the remainder, trimmed and lower-cased, is
the term; when it contains no `.`, the term is the entire trimmed line
(the `##` marker included), lower-cased; a term that normalizes to the
empty string is skipped. -/
def claimTermOfLine (line : List Char) : Option (List Char) :=
  let t := pyStrip line
  if t.take 2 = ['#', '#'] then
    let raw :=
      if '.' ∈ t then t.drop ((t.takeWhile (fun c => c ≠ '.')).length + 1)
      else t
    let term := lowerL (pyStrip raw)
    if term = [] then none else some term
  else none

/-- Term extraction as the amended claim words it: the term lines of
the document, in order, each mapped through `claimTermOfLine`. -/
def claim_extract_amended (vocab : String) : List String :=
  ((splitLines vocab.data).filterMap claimTermOfLine).map (fun l => ⟨l⟩)

/-- A node of the vocabulary graph: label, role (`center`, `top` or
`normal`), frequency and drawn size, the attributes `build_graph`
passes to `G.add_node`. -/
structure GraphNode where
  label : String
  role : String
  freq : Nat
  size : Nat
deriving DecidableEq, Repr

/-- An edge of the vocabulary graph with its `weight` attribute; the
graph is undirected, so `src`/`dst` are an unordered pair. -/
structure GraphEdge where
  src : String
  dst : String
  weight : Nat
deriving DecidableEq, Repr

/-- The abstract graph structure `build_graph` creates before any
drawing: node list and edge list in insertion order. -/
structure GraphModel where
  nodes : List GraphNode
  edges : List GraphEdge
deriving DecidableEq, Repr

/-- `networkx` `G.add_node`: a node keyed by its label; adding an
existing label updates its attributes in place, a new label is
appended. -/
def addNode (ns : List GraphNode) (n : GraphNode) : List GraphNode :=
  if ns.any (fun m => m.label == n.label) then
    ns.map (fun m => if m.label == n.label then n else m)
  else ns ++ [n]

/-- Whether two undirected edges join the same pair of labels. -/
def sameEnds (d e : GraphEdge) : Bool :=
  (d.src == e.src && d.dst == e.dst) || (d.src == e.dst && d.dst == e.src)

/-- `networkx` `G.add_edge`: keyed by the unordered label pair; adding
an existing pair updates its weight, a new pair is appended. -/
def addEdge (es : List GraphEdge) (e : GraphEdge) : List GraphEdge :=
  if es.any (fun d => sameEnds d e) then
    es.map (fun d => if sameEnds d e then { d with weight := e.weight } else d)
  else es ++ [e]

/-- The label of the central node in `build_graph`. -/
def center_label : String := "Generative AI Applications"

/-- The size formula of `build_graph` for a term node:
`1800 + count * 400`. -/
def sizeFor (count : Nat) : Nat := 1800 + count * 400

/-- The node `build_graph` adds for a used term. -/
def nodeFor (top : List String) (p : String × Nat) : GraphNode :=
  ⟨p.1, if p.1 ∈ top then "top" else "normal", p.2, sizeFor p.2⟩

/-- The edge `build_graph` adds for a used term. -/
def edgeFor (p : String × Nat) : GraphEdge :=
  ⟨center_label, p.1, p.2⟩

/-- The graph-construction part of `build_graph` in `stats.py`: keep
terms with count > 0; when none remain, stop with the empty-model
marker (`none`; the code draws a plain message image and returns
without building a graph); otherwise add the center node, then one
node and one center edge per used term.  The drawing code that
consumes the structure is presentation and is not modelled. -/
def build_graph (freq : List (String × Nat)) : Option GraphModel :=
  let used := freq.filter (fun p => 0 < p.2)
  if used = [] then none
  else
    let top := get_top_terms freq 3
    some (used.foldl
      (fun g p => ⟨addNode g.nodes (nodeFor top p), addEdge g.edges (edgeFor p)⟩)
      ⟨[⟨center_label, "center", 0, 3200⟩], []⟩)

theorem scanCount_eq_zero {term text : List Char}
    (h : ∀ j, matchAt term text j = false) :
    ∀ fuel i, scanCount term text i fuel = 0 := by
  intro fuel
  induction fuel with
  | zero => intro i; rfl
  | succ fuel ih => intro i; simp [scanCount, h i, ih]

theorem count_term_eq_zero {text term : List Char}
    (h : ∀ j, matchAt term text j = false) :
    count_term text term = 0 := by
  unfold count_term
  split
  · rfl
  · exact scanCount_eq_zero h _ _

theorem matchAt_parts {term text : List Char} {i : Nat}
    (h : matchAt term text i = true) :
    boundaryAt text i = true ∧ boundaryAt text (i + term.length) = true ∧
      (text.drop i).take term.length = term := by
  unfold matchAt at h
  simp only [Bool.and_eq_true, beq_iff_eq] at h
  exact ⟨h.1.1, h.1.2, h.2⟩

theorem matchAt_false_of_ge {term text : List Char} {j : Nat}
    (hterm : term ≠ []) (hj : text.length ≤ j) :
    matchAt term text j = false := by
  have hdrop : text.drop j = [] := List.drop_eq_nil_of_le hj
  unfold matchAt
  rw [hdrop]
  cases term with
  | nil => exact absurd rfl hterm
  | cons c cs => simp

theorem count_term_eq_zero_of_bounded {text term : List Char}
    (h : ∀ j ≤ text.length, matchAt term text j = false) :
    count_term text term = 0 := by
  by_cases hterm : term = []
  · simp [count_term, hterm]
  · refine count_term_eq_zero fun j => ?_
    by_cases hj : j ≤ text.length
    · exact h j hj
    · exact matchAt_false_of_ge hterm (le_of_lt (not_le.mp hj))

theorem scanCount_eq_length_matchPositions (term text : List Char) :
    ∀ fuel i, scanCount term text i fuel = (matchPositions term text i fuel).length := by
  intro fuel
  induction fuel with
  | zero => intro i; rfl
  | succ fuel ih =>
    intro i
    by_cases h : matchAt term text i = true
    · simp [scanCount, matchPositions, h, ih, Nat.add_comm]
    · simp [scanCount, matchPositions, h, ih]

theorem matchPositions_matches (term text : List Char) :
    ∀ fuel i, ∀ j ∈ matchPositions term text i fuel, matchAt term text j = true := by
  intro fuel
  induction fuel with
  | zero => intro i j hj; cases hj
  | succ fuel ih =>
    intro i j hj
    by_cases h : matchAt term text i = true
    · simp only [matchPositions, if_pos h, List.mem_cons] at hj
      rcases hj with rfl | hj
      · exact h
      · exact ih _ _ hj
    · simp only [matchPositions, if_neg h] at hj
      exact ih _ _ hj

theorem matchPositions_ge (term text : List Char) :
    ∀ fuel i, ∀ j ∈ matchPositions term text i fuel, i ≤ j := by
  intro fuel
  induction fuel with
  | zero => intro i j hj; cases hj
  | succ fuel ih =>
    intro i j hj
    by_cases h : matchAt term text i = true
    · simp only [matchPositions, if_pos h, List.mem_cons] at hj
      rcases hj with rfl | hj
      · exact le_refl j
      · exact le_trans (Nat.le_add_right i term.length) (ih _ _ hj)
    · simp only [matchPositions, if_neg h] at hj
      exact le_trans (Nat.le_succ i) (ih _ _ hj)

theorem matchPositions_chain (term text : List Char) :
    ∀ fuel i, List.Chain' (fun a b => a + term.length ≤ b)
      (matchPositions term text i fuel) := by
  intro fuel
  induction fuel with
  | zero => intro i; exact List.chain'_nil
  | succ fuel ih =>
    intro i
    by_cases h : matchAt term text i = true
    · simp only [matchPositions, if_pos h]
      refine List.chain'_cons'.mpr ⟨fun b hb => ?_, ih _⟩
      exact matchPositions_ge term text fuel _ b (List.mem_of_mem_head? hb)
    · simp only [matchPositions, if_neg h]
      exact ih _

theorem count_term_eq_length_positions (text term : List Char) :
    count_term text term = (match_positions text term).length := by
  unfold count_term match_positions
  split
  · rfl
  · exact scanCount_eq_length_matchPositions term text _ 0

theorem mem_dedupFirstAux {t : String} :
    ∀ (l seen : List String), t ∈ dedupFirstAux seen l ↔ t ∈ l ∧ t ∉ seen := by
  intro l
  induction l with
  | nil => intro seen; simp [dedupFirstAux]
  | cons a l ih =>
    intro seen
    by_cases h : a ∈ seen
    · rw [dedupFirstAux, if_pos h, ih]
      constructor
      · rintro ⟨h1, h2⟩
        exact ⟨List.mem_cons_of_mem a h1, h2⟩
      · rintro ⟨h1, h2⟩
        rcases List.mem_cons.mp h1 with rfl | h1
        · exact absurd h h2
        · exact ⟨h1, h2⟩
    · rw [dedupFirstAux, if_neg h]
      constructor
      · intro h1
        rcases List.mem_cons.mp h1 with rfl | h1
        · exact ⟨List.mem_cons_self _ _, h⟩
        · rcases (ih _).mp h1 with ⟨h2, h3⟩
          refine ⟨List.mem_cons_of_mem a h2, fun hc => h3 ?_⟩
          exact List.mem_cons_of_mem a hc
      · rintro ⟨h1, h2⟩
        rcases List.mem_cons.mp h1 with rfl | h1
        · exact List.mem_cons_self _ _
        · by_cases ht : t = a
          · exact ht ▸ List.mem_cons_self _ _
          · refine List.mem_cons_of_mem a ((ih _).mpr ⟨h1, fun hc => ?_⟩)
            rcases List.mem_cons.mp hc with h3 | h3
            · exact ht h3
            · exact h2 h3

theorem nodup_dedupFirstAux :
    ∀ (l seen : List String), (dedupFirstAux seen l).Nodup := by
  intro l
  induction l with
  | nil => intro seen; exact List.nodup_nil
  | cons a l ih =>
    intro seen
    by_cases h : a ∈ seen
    · rw [dedupFirstAux, if_pos h]; exact ih _
    · rw [dedupFirstAux, if_neg h]
      refine List.nodup_cons.mpr ⟨fun hc => ?_, ih _⟩
      exact ((mem_dedupFirstAux _ _).mp hc).2 (List.mem_cons_self _ _)

theorem mem_dedupFirst {t : String} {l : List String} :
    t ∈ dedupFirst l ↔ t ∈ l := by
  rw [dedupFirst, mem_dedupFirstAux]
  simp

theorem nodup_dedupFirst (l : List String) : (dedupFirst l).Nodup :=
  nodup_dedupFirstAux l []

theorem dropThroughDot_eq_drop :
    ∀ l : List Char,
      afterFirstDot.dropThroughDot l =
        l.drop ((l.takeWhile (fun c => c ≠ '.')).length + 1) := by
  intro l
  induction l with
  | nil => rfl
  | cons c cs ih =>
    by_cases h : c = '.'
    · subst h
      simp [afterFirstDot.dropThroughDot, List.takeWhile]
    · rw [afterFirstDot.dropThroughDot, if_neg h, ih]
      have : (decide (c ≠ '.')) = true := by simpa using h
      simp [List.takeWhile, this]

theorem claimTermOfLine_eq (l : List Char) :
    claimTermOfLine l =
      (if (pyStrip l).take 2 = ['#', '#'] then
        (if lowerL (pyStrip (afterFirstDot (pyStrip l))) = [] then none
         else some (lowerL (pyStrip (afterFirstDot (pyStrip l)))))
       else none) := by
  have h :
      (if '.' ∈ pyStrip l then
        (pyStrip l).drop (((pyStrip l).takeWhile (fun c => c ≠ '.')).length + 1)
      else pyStrip l) = afterFirstDot (pyStrip l) := by
    unfold afterFirstDot
    by_cases hdot : '.' ∈ pyStrip l
    · rw [if_pos hdot, if_pos hdot, dropThroughDot_eq_drop]
    · rw [if_neg hdot, if_neg hdot]
  simp only [claimTermOfLine]
  rw [h]

theorem extractFromLines_eq_filterMap :
    ∀ ls : List (List Char),
      extractFromLines ls = ls.filterMap claimTermOfLine := by
  intro ls
  induction ls with
  | nil => rfl
  | cons l ls ih =>
    rw [List.filterMap_cons, ← ih, claimTermOfLine_eq, extractFromLines]
    by_cases hmark : (pyStrip l).take 2 = ['#', '#']
    · by_cases hempty : lowerL (pyStrip (afterFirstDot (pyStrip l))) = []
      · simp [hmark, hempty]
      · simp [hmark, hempty]
    · simp [hmark]

theorem mem_addNode {ns : List GraphNode} {m n : GraphNode}
    (h : n ∈ addNode ns m) : n ∈ ns ∨ n = m := by
  unfold addNode at h
  split at h
  · rcases List.mem_map.mp h with ⟨x, hx, heq⟩
    by_cases hc : x.label == m.label
    · rw [if_pos hc] at heq
      exact Or.inr heq.symm
    · rw [if_neg hc] at heq
      exact Or.inl (heq ▸ hx)
  · rcases List.mem_append.mp h with h1 | h1
    · exact Or.inl h1
    · exact Or.inr (List.mem_singleton.mp h1)

theorem addNode_append {ns : List GraphNode} {n : GraphNode}
    (h : ∀ m ∈ ns, m.label ≠ n.label) : addNode ns n = ns ++ [n] := by
  unfold addNode
  have hany : ns.any (fun m => m.label == n.label) = false := by
    rw [List.any_eq_false]
    intro m hm
    simpa using h m hm
  rw [hany]
  simp

theorem addEdge_append {es : List GraphEdge} {e : GraphEdge}
    (h : ∀ d ∈ es, sameEnds d e = false) : addEdge es e = es ++ [e] := by
  unfold addEdge
  have hany : es.any (fun d => sameEnds d e) = false := by
    rw [List.any_eq_false]
    intro d hd
    simp [h d hd]
  rw [hany]
  simp

/-- One step function of the `build_graph` fold. -/
def buildStep (top : List String) (g : GraphModel) (p : String × Nat) : GraphModel :=
  ⟨addNode g.nodes (nodeFor top p), addEdge g.edges (edgeFor p)⟩

theorem buildFold_eq (top : List String) :
    ∀ (l : List (String × Nat)) (ns : List GraphNode) (es : List GraphEdge),
      (∀ p ∈ l, ∀ n ∈ ns, n.label ≠ p.1) →
      (∀ p ∈ l, ∀ e ∈ es, sameEnds e (edgeFor p) = false) →
      ((l.map Prod.fst).Nodup) →
      (∀ p ∈ l, p.1 ≠ center_label) →
      l.foldl (buildStep top) ⟨ns, es⟩ =
        ⟨ns ++ l.map (nodeFor top), es ++ l.map edgeFor⟩ := by
  intro l
  induction l with
  | nil => intro ns es _ _ _ _; simp
  | cons p l ih =>
    intro ns es hns hes hnodup hcen
    have hnotin : p.1 ∉ l.map Prod.fst := (List.nodup_cons.mp hnodup).1
    have step1 : addNode ns (nodeFor top p) = ns ++ [nodeFor top p] :=
      addNode_append fun m hm => hns p (List.mem_cons_self _ _) m hm
    have step2 : addEdge es (edgeFor p) = es ++ [edgeFor p] :=
      addEdge_append fun d hd => hes p (List.mem_cons_self _ _) d hd
    rw [List.foldl_cons]
    have hstep : buildStep top ⟨ns, es⟩ p = ⟨ns ++ [nodeFor top p], es ++ [edgeFor p]⟩ := by
      rw [buildStep, step1, step2]
    rw [hstep, ih (ns ++ [nodeFor top p]) (es ++ [edgeFor p])]
    · simp
    · intro q hq n hn
      rcases List.mem_append.mp hn with h1 | h1
      · exact hns q (List.mem_cons_of_mem p hq) n h1
      · rw [List.mem_singleton.mp h1]
        show p.1 ≠ q.1
        intro hc
        exact hnotin (hc ▸ List.mem_map_of_mem Prod.fst hq)
    · intro q hq e he
      rcases List.mem_append.mp he with h1 | h1
      · exact hes q (List.mem_cons_of_mem p hq) e h1
      · rw [List.mem_singleton.mp h1]
        have hpq : p.1 ≠ q.1 := fun hc => hnotin (hc ▸ List.mem_map_of_mem Prod.fst hq)
        have hqc : q.1 ≠ center_label := hcen q (List.mem_cons_of_mem p hq)
        simp only [sameEnds, edgeFor, Bool.or_eq_false_iff, Bool.and_eq_false_iff]
        constructor
        · right
          simpa using hpq
        · left
          simpa using fun hc => hqc hc.symm
    · exact (List.nodup_cons.mp hnodup).2
    · intro q hq
      exact hcen q (List.mem_cons_of_mem p hq)

theorem build_graph_eq (freq : List (String × Nat)) :
    build_graph freq =
      (if freq.filter (fun p => 0 < p.2) = [] then none
       else some ((freq.filter (fun p => 0 < p.2)).foldl
         (buildStep (get_top_terms freq 3))
         ⟨[⟨center_label, "center", 0, 3200⟩], []⟩)) := rfl

theorem build_graph_structure {freq : List (String × Nat)}
    (h1 : (freq.map Prod.fst).Nodup)
    (h2 : center_label ∉ freq.map Prod.fst)
    {m : GraphModel} (hm : build_graph freq = some m) :
    m.nodes = ⟨center_label, "center", 0, 3200⟩ ::
        (freq.filter (fun p => 0 < p.2)).map (nodeFor (get_top_terms freq 3)) ∧
      m.edges = (freq.filter (fun p => 0 < p.2)).map edgeFor := by
  rw [build_graph_eq] at hm
  by_cases hused : freq.filter (fun p => 0 < p.2) = []
  · rw [if_pos hused] at hm
    cases hm
  · rw [if_neg hused] at hm
    have hkeys : ∀ p ∈ freq.filter (fun p => 0 < p.2), p.1 ≠ center_label := by
      intro p hp hc
      exact h2 (hc ▸ List.mem_map_of_mem Prod.fst (List.mem_filter.mp hp).1)
    have hfold := buildFold_eq (get_top_terms freq 3)
      (freq.filter (fun p => 0 < p.2))
      [⟨center_label, "center", 0, 3200⟩] []
      (by
        intro p hp n hn
        rw [List.mem_singleton.mp hn]
        exact fun hc => hkeys p hp hc.symm)
      (by intro p hp e he; cases he)
      (((List.filter_sublist freq).map Prod.fst).nodup h1)
      hkeys
    rw [hfold] at hm
    cases hm
    exact ⟨by simp, by simp⟩

theorem foldl_nodes_size (top : List String) :
    ∀ (l : List (String × Nat)) (g : GraphModel),
      (∀ n ∈ g.nodes, n.role ≠ "center" → n.size = 1800 + n.freq * 400) →
      ∀ n ∈ (l.foldl (buildStep top) g).nodes, n.role ≠ "center" →
        n.size = 1800 + n.freq * 400 := by
  intro l
  induction l with
  | nil => intro g hg; exact hg
  | cons p l ih =>
    intro g hg
    rw [List.foldl_cons]
    refine ih _ ?_
    intro n hn hrole
    rcases mem_addNode hn with h1 | h1
    · exact hg n h1 hrole
    · rw [h1]
      rfl

theorem get_top_terms_eq_topPairs (freq : List (String × Nat)) (k : Nat) :
    get_top_terms freq k = (topPairs freq k).map Prod.fst := by
  unfold get_top_terms topPairs
  by_cases h : freq.filter (fun p => 0 < p.2) = []
  · rw [if_pos h, h]
    simp
  · rw [if_neg h]

theorem pairwise_topPairs (freq : List (String × Nat)) (k : Nat) :
    List.Pairwise termLE (topPairs freq k) :=
  (List.sorted_insertionSort termLE _).sublist (List.take_sublist _ _)

theorem get_top_terms_perm {freq freq2 : List (String × Nat)}
    (h : freq.Perm freq2) (k : Nat) :
    get_top_terms freq k = get_top_terms freq2 k := by
  have hf : (freq.filter (fun p => 0 < p.2)).Perm
      (freq2.filter (fun p => 0 < p.2)) := h.filter _
  rw [get_top_terms_eq_topPairs, get_top_terms_eq_topPairs]
  unfold topPairs
  have hsort : List.insertionSort termLE (freq.filter (fun p => 0 < p.2)) =
      List.insertionSort termLE (freq2.filter (fun p => 0 < p.2)) :=
    List.eq_of_perm_of_sorted
      ((List.perm_insertionSort termLE _).trans
        (hf.trans (List.perm_insertionSort termLE _).symm))
      (List.sorted_insertionSort termLE _)
      (List.sorted_insertionSort termLE _)
  rw [hsort]

/-- C2 (counterexample): on the dot-free heading line `## Generative AI`
the code emits the term `"## generative ai"`, keeping the `##` marker,
which differs from `"generative ai"`, the text following the marker;
so the emitted term is not, as the claim states, the text following the
heading marker. -/
theorem extract_terms_no_dot_cex :
    extract_terms "## Generative AI" = ["## generative ai"] ∧
      ("## generative ai" : String) ≠ "generative ai" := by
  constructor
  · decide
  · decide

/-- C2 (amended): for every vocabulary text, a line contributes a term
iff, after trimming, it starts with `##`; on a line containing `.`,
everything up to and including the first `.` is discarded and the
remainder, trimmed and lower-cased, is the term; on a line containing
no `.`, the emitted term is the entire trimmed line — the `##` marker
included — lower-cased; terms that normalize to the empty string are
skipped; output order follows document order and duplicates are
preserved.  Stated as equality with the claim-shaped extractor
`claim_extract_amended`. -/
theorem term_extraction_amended (vocab : String) :
    extract_terms vocab = claim_extract_amended vocab := by
  unfold extract_terms claim_extract_amended
  rw [extractFromLines_eq_filterMap]

/-- C3: a match of `count_frequencies` requires word boundaries on both
sides of the term, so an occurrence inside a larger word contributes 0;
in particular the term `ai` counts 0 over the text `said` and the term
`token` counts 0 over a text containing only `tokenization`. -/
theorem word_boundary_matching :
    (∀ (term text : List Char) (i : Nat), matchAt term text i = true →
      boundaryAt text i = true ∧ boundaryAt text (i + term.length) = true) ∧
    count_frequencies "said" ["ai"] = [("ai", 0)] ∧
    count_frequencies "tokenization is different" ["token"] = [("token", 0)] := by
  refine ⟨?_, by decide, by decide⟩
  intro term text i h
  exact ⟨(matchAt_parts h).1, (matchAt_parts h).2.1⟩

/-- Witness for C3: at a concrete boundary-delimited occurrence the
match holds and both boundary conditions are recovered. -/
theorem word_boundary_matching_witness :
    matchAt "ai".data "the ai".data 4 = true ∧
      (boundaryAt "the ai".data 4 = true ∧
        boundaryAt "the ai".data (4 + "ai".data.length) = true) :=
  ⟨by decide, word_boundary_matching.1 "ai".data "the ai".data 4 (by decide)⟩

/-- C4: end-to-end example — extraction of the three vocabulary terms,
the frequency map with the three casings of `generative ai` all
counted, and the top-3 list with the count-descending, then
alphabetical order. -/
theorem end_to_end_example :
    extract_terms "## 1. Generative AI\n## 2. Vector Database\n## 3. Prompt Engineering" =
      ["generative ai", "vector database", "prompt engineering"] ∧
    count_frequencies
        "Generative AI relies on a vector database. Generative AI also needs prompt engineering, and generative ai is growing."
        ["generative ai", "vector database", "prompt engineering"] =
      [("generative ai", 3), ("vector database", 1), ("prompt engineering", 1)] ∧
    get_top_terms
        [("generative ai", 3), ("vector database", 1), ("prompt engineering", 1)] 3 =
      ["generative ai", "prompt engineering", "vector database"] := by
  refine ⟨by decide, by decide, by decide⟩

/-- C6: when no term has a positive count the builder stops with the
empty-model marker and the top-k list is empty; concretely, for terms
`foo` and `bar` over a text containing neither, the frequency map is
still `{foo: 0, bar: 0}` while the builder returns the marker. -/
theorem empty_model_scenario (freq : List (String × Nat))
    (h : ∀ p ∈ freq, p.2 = 0) :
    build_graph freq = none ∧ get_top_terms freq 3 = [] ∧
    count_frequencies "these words appear nowhere" ["foo", "bar"] =
      [("foo", 0), ("bar", 0)] ∧
    build_graph [(("foo" : String), (0 : Nat)), ("bar", 0)] = none := by
  have hfil : freq.filter (fun p => 0 < p.2) = [] := by
    rw [List.filter_eq_nil_iff]
    intro p hp
    simp [h p hp]
  refine ⟨?_, ?_, by decide, by decide⟩
  · rw [build_graph_eq, if_pos hfil]
  · simp [get_top_terms, hfil]

/-- Witness for C6 at the concrete all-zero map `[("x", 0)]`. -/
theorem empty_model_scenario_witness :
    build_graph [(("x" : String), (0 : Nat))] = none ∧
      get_top_terms [(("x" : String), (0 : Nat))] 3 = [] :=
  ⟨(empty_model_scenario [("x", 0)] (by decide)).1,
   (empty_model_scenario [("x", 0)] (by decide)).2.1⟩

/-- C9: the matching pattern treats a term's characters literally — a
successful match reproduces exactly the term's character sequence —
and counting terms containing regex metacharacters neither fails nor
matches other sequences: `a.b` does not count `axb`, and `2+2` does
not count `2x2`. -/
theorem literal_special_characters :
    (∀ (term text : List Char) (i : Nat), matchAt term text i = true →
      (text.drop i).take term.length = term) ∧
    count_frequencies "match a.b here but not axb or acb" ["a.b"] = [("a.b", 1)] ∧
    count_frequencies "2+2=4 and 2x2=4" ["2+2"] = [("2+2", 1)] := by
  refine ⟨?_, by decide, by decide⟩
  intro term text i h
  exact (matchAt_parts h).2.2

/-- Witness for C9: a concrete match of the metacharacter term `a.b`
reproduces exactly its character sequence. -/
theorem literal_special_characters_witness :
    matchAt "a.b".data "x a.b y".data 2 = true ∧
      ("x a.b y".data.drop 2).take "a.b".data.length = "a.b".data :=
  ⟨by decide, literal_special_characters.1 "a.b".data "x a.b y".data 2 (by decide)⟩

/-- C10: the boundary anchors wrap the escaped term, so the term `c++`,
whose last character is a non-word character, is not counted in
`we use c++ here` even though it occurs there delimited by spaces: the
slice at position 7 is exactly `c++` with a space on each side, yet the
count is 0. -/
theorem boundary_anchor_edge_case :
    count_frequencies "we use c++ here" ["c++"] = [("c++", 0)] ∧
    (List.drop 7 (lowerL "we use c++ here".data)).take 3 = "c++".data ∧
    (lowerL "we use c++ here".data)[6]? = some ' ' ∧
    (lowerL "we use c++ here".data)[10]? = some ' ' := by
  refine ⟨by decide, by decide, by decide, by decide⟩

/-- C1: the top-k list contains only terms with positive count, has at
most k entries, is the first k names of the pair list sorted by count
descending with ties broken by the term string ascending, is invariant
under permutation of the frequency map, and resolves the all-tied
example `a, b, c` alphabetically. -/
theorem top_k_selection (freq freq2 : List (String × Nat)) (k : Nat) :
    (∀ t ∈ get_top_terms freq k, ∃ p, p ∈ freq ∧ p.1 = t ∧ 0 < p.2) ∧
    (get_top_terms freq k).length ≤ k ∧
    (get_top_terms freq k = (topPairs freq k).map Prod.fst ∧
      List.Pairwise termLE (topPairs freq k)) ∧
    (freq.Perm freq2 → get_top_terms freq k = get_top_terms freq2 k) ∧
    get_top_terms [(("a" : String), (5 : Nat)), ("b", 5), ("c", 5)] 3 =
      ["a", "b", "c"] := by
  refine ⟨?_, ?_, ⟨get_top_terms_eq_topPairs freq k, pairwise_topPairs freq k⟩,
    fun h => get_top_terms_perm h k, by decide⟩
  · intro t ht
    rw [get_top_terms_eq_topPairs] at ht
    rcases List.mem_map.mp ht with ⟨p, hp, rfl⟩
    have hp2 : p ∈ List.insertionSort termLE (freq.filter (fun q => 0 < q.2)) :=
      List.mem_of_mem_take hp
    rw [List.mem_insertionSort] at hp2
    rcases List.mem_filter.mp hp2 with ⟨hmem, hpos⟩
    exact ⟨p, hmem, rfl, by simpa using hpos⟩
  · rw [get_top_terms_eq_topPairs, List.length_map]
    exact List.length_take_le _ _

/-- Witness for C1: the permutation-invariance part at two concrete
insertion orders of the same frequency map. -/
theorem top_k_selection_witness :
    ([(("b" : String), (1 : Nat)), ("a", 2)]).Perm
        [(("a" : String), (2 : Nat)), ("b", 1)] ∧
      get_top_terms [(("b" : String), (1 : Nat)), ("a", 2)] 3 =
        get_top_terms [(("a" : String), (2 : Nat)), ("b", 1)] 3 :=
  ⟨by decide,
   (top_k_selection [("b", 1), ("a", 2)] [("a", 2), ("b", 1)] 3).2.2.2.1 (by decide)⟩

/-- C5: the frequency map has exactly one entry per distinct input term
(keys are the input terms, first occurrence first, without duplicates);
each count is the length of the left-to-right list of non-overlapping
whole-word match positions; a term with no whole-word occurrence is
mapped to 0; the empty term list yields the empty map. -/
theorem frequency_map_completeness (text : String) (terms : List String) :
    ((count_frequencies text terms).map Prod.fst = dedupFirst terms ∧
      (dedupFirst terms).Nodup ∧ (∀ t, t ∈ dedupFirst terms ↔ t ∈ terms)) ∧
    (∀ p ∈ count_frequencies text terms,
      p.2 = (match_positions (lowerL text.data) p.1.data).length ∧
      (∀ j ∈ match_positions (lowerL text.data) p.1.data,
        matchAt p.1.data (lowerL text.data) j = true) ∧
      List.Chain' (fun a b => a + p.1.data.length ≤ b)
        (match_positions (lowerL text.data) p.1.data)) ∧
    (∀ p ∈ count_frequencies text terms,
      (∀ j ≤ (lowerL text.data).length,
        matchAt p.1.data (lowerL text.data) j = false) → p.2 = 0) ∧
    count_frequencies text [] = [] := by
  refine ⟨⟨?_, nodup_dedupFirst terms, fun t => mem_dedupFirst⟩, ?_, ?_, rfl⟩
  · unfold count_frequencies
    rw [List.map_map]
    show List.map (fun t => t) (dedupFirst terms) = dedupFirst terms
    exact List.map_id _
  · intro p hp
    unfold count_frequencies at hp
    rcases List.mem_map.mp hp with ⟨t, _, rfl⟩
    refine ⟨count_term_eq_length_positions _ _, ?_, ?_⟩
    · intro j hj
      unfold match_positions at hj
      split at hj
      · cases hj
      · exact matchPositions_matches _ _ _ _ j hj
    · unfold match_positions
      split
      · exact List.chain'_nil
      · exact matchPositions_chain _ _ _ _
  · intro p hp hnone
    unfold count_frequencies at hp
    rcases List.mem_map.mp hp with ⟨t, _, rfl⟩
    exact count_term_eq_zero_of_bounded hnone

/-- Witness for C5: key list of a concrete map, and the zero-count part
discharged at the concrete absent term `foo`. -/
theorem frequency_map_completeness_witness :
    (count_frequencies "nothing here" ["foo", "bar"]).map Prod.fst =
        dedupFirst ["foo", "bar"] ∧
      ((("foo" : String), (0 : Nat))).2 = 0 :=
  ⟨(frequency_map_completeness "nothing here" ["foo", "bar"]).1.1,
   (frequency_map_completeness "nothing here" ["foo", "bar"]).2.2.1 ("foo", 0)
     (by decide) (by decide)⟩

/-- C7: in every built graph model the size of every non-center node is
computed by the role-independent formula `1800 + count * 400`, so the
size is strictly monotone in the count. -/
theorem node_size_monotonic (freq : List (String × Nat)) (m : GraphModel)
    (hm : build_graph freq = some m) :
    (∀ n ∈ m.nodes, n.role ≠ "center" → n.size = 1800 + n.freq * 400) ∧
    (∀ n1 ∈ m.nodes, ∀ n2 ∈ m.nodes, n1.role ≠ "center" → n2.role ≠ "center" →
      n1.freq < n2.freq → n1.size < n2.size) := by
  have hformula : ∀ n ∈ m.nodes, n.role ≠ "center" → n.size = 1800 + n.freq * 400 := by
    rw [build_graph_eq] at hm
    by_cases hused : freq.filter (fun p => 0 < p.2) = []
    · rw [if_pos hused] at hm
      cases hm
    · rw [if_neg hused] at hm
      injection hm with hm
      rw [← hm]
      refine foldl_nodes_size _ _ _ ?_
      intro n hn hrole
      rw [List.mem_singleton.mp hn] at hrole
      exact absurd rfl hrole
  refine ⟨hformula, ?_⟩
  intro n1 h1 n2 h2 hr1 hr2 hlt
  rw [hformula n1 h1 hr1, hformula n2 h2 hr2]
  exact Nat.add_lt_add_left ((Nat.mul_lt_mul_right (by decide)).mpr hlt) 1800

/-- Witness for C7: in the model built from `[("a", 1), ("b", 2)]`, the
node of count 1 is strictly smaller than the node of count 2. -/
theorem node_size_monotonic_witness :
    (GraphNode.mk "a" "top" 1 2200).size < (GraphNode.mk "b" "top" 2 2600).size :=
  (node_size_monotonic [("a", 1), ("b", 2)]
      ⟨[⟨center_label, "center", 0, 3200⟩, ⟨"a", "top", 1, 2200⟩,
          ⟨"b", "top", 2, 2600⟩],
        [⟨center_label, "a", 1⟩, ⟨center_label, "b", 2⟩]⟩
      (by decide)).2
    ⟨"a", "top", 1, 2200⟩ (by decide) ⟨"b", "top", 2, 2600⟩ (by decide)
    (by decide) (by decide) (by decide)

/-- C8: every built graph model has exactly one center-role node, whose
label is the center label and whose frequency is 0; exactly one node
per positive-count term and none for a zero-count term; and its edge
list is exactly one center-to-term edge per positive-count term,
weighted by that term's count (so no edge touches a zero-count term
and no edge joins two non-center nodes). -/
theorem graph_shape_invariant (freq : List (String × Nat))
    (h1 : (freq.map Prod.fst).Nodup)
    (h2 : center_label ∉ freq.map Prod.fst)
    (m : GraphModel) (hm : build_graph freq = some m) :
    m.nodes.countP (fun n => n.role == "center") = 1 ∧
    (∀ n ∈ m.nodes, n.role = "center" → n.label = center_label ∧ n.freq = 0) ∧
    (∀ p ∈ freq, 0 < p.2 → m.nodes.countP (fun n => n.label == p.1) = 1) ∧
    (∀ p ∈ freq, p.2 = 0 → ∀ n ∈ m.nodes, n.label ≠ p.1) ∧
    m.edges = (freq.filter (fun p => 0 < p.2)).map
      (fun p => ⟨center_label, p.1, p.2⟩) := by
  obtain ⟨hn, he⟩ := build_graph_structure h1 h2 hm
  have hrole : ∀ n ∈ (freq.filter (fun p => 0 < p.2)).map
      (nodeFor (get_top_terms freq 3)), (n.role == "center") = false := by
    intro n hnm
    rcases List.mem_map.mp hnm with ⟨p, _, rfl⟩
    unfold nodeFor
    by_cases hmem : p.1 ∈ get_top_terms freq 3
    · simp [hmem]
    · simp [hmem]
  refine ⟨?_, ?_, ?_, ?_, he.trans rfl⟩
  · rw [hn, List.countP_cons]
    have h0 : ((freq.filter (fun p => 0 < p.2)).map
        (nodeFor (get_top_terms freq 3))).countP (fun n => n.role == "center") = 0 := by
      rw [List.countP_eq_zero]
      intro n hnm
      simp [hrole n hnm]
    rw [h0]
    decide
  · intro n hnm hnc
    rw [hn] at hnm
    rcases List.mem_cons.mp hnm with rfl | hmem
    · exact ⟨rfl, rfl⟩
    · have := hrole n hmem
      rw [hnc] at this
      simp at this
  · intro p hp hpos
    have hne : center_label ≠ p.1 :=
      fun hcl => h2 (hcl ▸ List.mem_map_of_mem Prod.fst hp)
    have hpmem : p.1 ∈ (freq.filter (fun q => 0 < q.2)).map Prod.fst :=
      List.mem_map_of_mem Prod.fst
        (List.mem_filter.mpr ⟨hp, by simpa using hpos⟩)
    have hnodup : ((freq.filter (fun q => 0 < q.2)).map Prod.fst).Nodup :=
      ((List.filter_sublist freq).map Prod.fst).nodup h1
    have hmap : ((freq.filter (fun q => 0 < q.2)).map
        (nodeFor (get_top_terms freq 3))).countP (fun n => n.label == p.1)
        = ((freq.filter (fun q => 0 < q.2)).map Prod.fst).count p.1 := by
      rw [List.countP_map, List.count_eq_countP, List.countP_map]
      rfl
    have hif : ((⟨center_label, "center", 0, 3200⟩ : GraphNode).label == p.1) = false :=
      beq_eq_false_iff_ne.mpr hne
    rw [hn, List.countP_cons, hmap, List.count_eq_one_of_mem hnodup hpmem, hif]
    simp
  · intro p hp hzero n hnm hlab
    rw [hn] at hnm
    rcases List.mem_cons.mp hnm with rfl | hmem
    · refine h2 ?_
      rw [show center_label = p.1 from hlab]
      exact List.mem_map_of_mem Prod.fst hp
    · rcases List.mem_map.mp hmem with ⟨q, hq, rfl⟩
      rcases List.mem_filter.mp hq with ⟨hqf, hqpos⟩
      have : q = p := List.inj_on_of_nodup_map h1 hqf hp hlab
      rw [this, hzero] at hqpos
      simp at hqpos

/-- Witness for C8: the center-node count at the concrete model built
from `[("a", 2), ("z", 0)]`. -/
theorem graph_shape_invariant_witness :
    ((GraphModel.mk
        [⟨center_label, "center", 0, 3200⟩, ⟨"a", "top", 2, 2600⟩]
        [⟨center_label, "a", 2⟩]).nodes.countP
      (fun n => n.role == "center")) = 1 :=
  (graph_shape_invariant [("a", 2), ("z", 0)] (by decide) (by decide)
      ⟨[⟨center_label, "center", 0, 3200⟩, ⟨"a", "top", 2, 2600⟩],
        [⟨center_label, "a", 2⟩]⟩
      (by decide)).1

end VocabStats
